import Mathlib

/-!
# Verification of the source-console-shell core (src/source-console-shell.py)

Shallow embedding of the `SourceConsole` class: output chunks, the transport
reader's per-read behaviour (`read_output`), the continuous display loop
(`display_continuous_output`), the quiet-period collector (`get_output`),
the probe parsers (`query_entities`, `load_cvar_list`) and the command
sender (`send_command`).

Modelling conventions:
* Strings arriving from the socket are modelled at the decode-unit level:
  a received byte string is a `List (Option Char)` where `some c` is a byte
  sequence that decodes to the character `c` and `none` is a malformed byte
  sequence.  Python's `bytes.decode('utf-8', errors='ignore')` drops the
  malformed units (`pyDecodeIgnore`).
* Python's blocking loops over `time.time()` are modelled in discrete time:
  one tick is one sleep slice; chunks that arrive during tick `t` are all
  popped (instantaneously) at tick `t`, and an iteration that finds the
  queue empty advances time by one tick.  The loop of `get_output` is the
  fuel-indexed `get_output_loop`.
* Python regular-expression whitespace `\s` and `str.strip`/`str.lower`
  are modelled over their ASCII parts (`isSpc`, `Char.toLower`); no claim
  depends on non-ASCII whitespace or case folding.
-/

/-- An entry of `SourceConsole.output_queue`: the pair
`(output, is_autocomplete)` pushed by `read_output` (line 83). -/
structure Chunk where
  text : List Char
  is_probe : Bool
deriving DecidableEq, Repr

/-- ASCII part of Python's whitespace class (`\s`, `str.strip`,
`str.isspace`): space, tab, newline, carriage return, vertical tab,
form feed. -/
def isSpc (c : Char) : Bool :=
  c = ' ' || c = '\t' || c = '\n' || c = '\r' || c = '\x0b' || c = '\x0c'

/-- `data.decode('utf-8', errors='ignore')` (line 79): malformed byte
sequences are dropped, valid ones decode to their character. -/
def pyDecodeIgnore (units : List (Option Char)) : List Char :=
  units.filterMap id

/-- `output.replace('\r\n', '\n')` (line 82): single left-to-right pass
replacing each non-overlapping CRLF pair by LF. -/
def normalizeCRLF : List Char → List Char
  | [] => []
  | '\r' :: '\n' :: rest => '\n' :: normalizeCRLF rest
  | c :: rest => c :: normalizeCRLF rest

/-- One data-handling step of the reader loop `read_output`
(lines 79-83): decode with `errors='ignore'`, and if the decoded text is
non-empty, normalize CRLF and push one chunk tagged with the current
`is_autocomplete_query` flag; if it is empty, push nothing. -/
def read_output_chunk (units : List (Option Char)) (mode : Bool) : Option Chunk :=
  let output := pyDecodeIgnore units
  if output.isEmpty then none
  else some ⟨normalizeCRLF output, mode⟩

/-- Modelled from the spec (for comparison only): decoding that *replaces*
malformed byte sequences with U+FFFD, as the spec's
"decode as text tolerating malformed byte sequences (replace, never raise)"
describes. -/
def specDecodeReplace (units : List (Option Char)) : List Char :=
  units.map (fun u => u.getD (Char.ofNat 0xFFFD))

/-- Modelled from the spec (for comparison only): normalization of *all*
line-ending variants (CRLF and lone CR) to LF, as the spec's
"normalize all line-ending variants to a single newline convention"
describes. -/
def specNormalizeEOL : List Char → List Char
  | [] => []
  | '\r' :: '\n' :: rest => '\n' :: specNormalizeEOL rest
  | '\r' :: rest => '\n' :: specNormalizeEOL rest
  | c :: rest => c :: specNormalizeEOL rest

/-- One iteration of `display_continuous_output` (lines 132-142) acting on
the suppress flag and the queue: when suppressed it sleeps and pops
nothing; otherwise it pops the next chunk (if any) and prints its text —
the probe tag of the popped pair is bound to `_` and ignored (line 138). -/
def display_step (suppress_output : Bool) (q : List Chunk) :
    List Chunk × Option (List Char) :=
  if suppress_output then (q, none)
  else
    match q with
    | [] => (q, none)
    | c :: rest => (rest, some c.text)

/-- The display loop run to exhaustion over a queue while never
suppressed: the text it emits, in order. -/
def display_run : List Chunk → List Char
  | [] => []
  | q@(_ :: rest) => ((display_step false q).2.getD []) ++ display_run rest

/-- The per-chunk contribution inside `get_output` (lines 118-120):
`if filter_autocomplete or not is_autocomplete: result += output`. -/
def chunkContrib (filter_autocomplete : Bool) (c : Chunk) : List Char :=
  if filter_autocomplete || !c.is_probe then c.text else []

/-- The text `get_output` accumulates from a list of popped chunks, in
order: matching chunks are concatenated, non-matching ones contribute
nothing (they are popped and dropped, never requeued). -/
def pyFilterConcat (filter_autocomplete : Bool) (chunks : List Chunk) : List Char :=
  (chunks.map (chunkContrib filter_autocomplete)).flatten

/-- Discrete-time model of the loop of `get_output` (lines 113-125).
`sched t` is the list of chunks that arrive during tick `t`; `t` is the
current time, `d` the current value of `stop_time`.  Each recursion step
is one tick: if the deadline has passed, return the accumulated text and
the return time; otherwise pop every chunk available this tick (appending
the matching ones to the accumulator and resetting `stop_time` to
`now + timeout` — line 121 runs on every pop, matching or not) and let one
sleep slice elapse.  `fuel` bounds the number of ticks so the recursion is
total; `none` means the fuel ran out. -/
def get_output_loop (sched : Nat → List Chunk) (timeout : Nat)
    (filter_autocomplete : Bool) :
    Nat → Nat → Nat → List Char → Option (Nat × List Char)
  | 0, _, _, _ => none
  | fuel + 1, t, d, acc =>
    if d ≤ t then some (t, acc)
    else
      get_output_loop sched timeout filter_autocomplete fuel (t + 1)
        (if (sched t).isEmpty then d else t + timeout)
        (acc ++ pyFilterConcat filter_autocomplete (sched t))

/-- The lazy group `(?P<entity>.*?)` followed by the closing `'` in the
pattern of `query_entities` (line 191): consume characters (never a
newline) until the first `'`, which closes the group since nothing
follows it in the pattern. -/
def matchEntity : List Char → List Char → Option (List Char)
  | _, [] => none
  | acc, c :: rest =>
    if c = '\'' then some acc.reverse
    else if c = '\n' then none
    else matchEntity (c :: acc) rest

/-- The part `\s*:\s*'(?P<entity>.*?)'` of the pattern, matched after the
quote closing the class group.  `\s*` is greedy but backtracking never
helps it since `:` and `'` are not whitespace, so drop-then-expect is
exact. -/
def afterClass (s : List Char) : Option (List Char) :=
  match s.dropWhile isSpc with
  | ':' :: s2 =>
    (match s2.dropWhile isSpc with
     | '\'' :: s3 => matchEntity [] s3
     | _ => none)
  | _ => none

/-- The lazy group `(?P<class>.*?)` followed by `'\s*:\s*'(?P<entity>.*?)'`:
at each position first try to close the class group (the current character
must be `'` and the rest of the pattern must match after it); on failure
extend the group by one character (any character but a newline), as regex
backtracking does. -/
def matchClass : List Char → List Char → Option (List Char × List Char)
  | _, [] => none
  | acc, c :: rest =>
    if c = '\'' then
      match afterClass rest with
      | some ent => some (acc.reverse, ent)
      | none => matchClass (c :: acc) rest
    else if c = '\n' then none
    else matchClass (c :: acc) rest

/-- `re.match(r"\s*'(?P<class>.*?)'\s*:\s*'(?P<entity>.*?)'", line)`
(line 191): anchored at the start of the line, leading whitespace, then
the two lazily-matched single-quoted groups separated by a colon. -/
def pyMatchLine (line : List Char) : Option (List Char × List Char) :=
  match line.dropWhile isSpc with
  | '\'' :: rest => matchClass [] rest
  | _ => none

/-- Python's `str.startswith`: the first argument is a prefix of the
second. -/
def strStartsWith : List Char → List Char → Bool
  | [], _ => true
  | _ :: _, [] => false
  | a :: as, b :: bs => a = b && strStartsWith as bs

/-- Python's `str.lower` (ASCII part), applied characterwise. -/
def lowerL (s : List Char) : List Char :=
  s.map Char.toLower

/-- Code-point lexicographic strict order on character lists: a proper
initial segment is smaller, otherwise the first differing code point
decides.  This is Python's `<` on strings. -/
def strLtL : List Char → List Char → Bool
  | [], [] => false
  | [], _ :: _ => true
  | _ :: _, [] => false
  | a :: as, b :: bs =>
    a.toNat < b.toNat || (a.toNat = b.toNat && strLtL as bs)

/-- Code-point lexicographic `≤` on strings, as Python's `sorted` uses. -/
def strLe (a b : String) : Bool :=
  !(strLtL b.data a.data)

/-- Insert into a `strLe`-sorted list, keeping it sorted. -/
def pyInsert (x : String) : List String → List String
  | [] => [x]
  | y :: ys => if strLe x y then x :: y :: ys else y :: pyInsert x ys

/-- Insertion sort by `strLe`: the value of Python's `sorted` on string
lists (Python's sort is stable, but equal strings are equal values, so the
resulting list is the same). -/
def pySorted : List String → List String
  | [] => []
  | x :: xs => pyInsert x (pySorted xs)

/-- The parsing and filtering core of `query_entities` (lines 188-201):
match each response line against the quoted pair pattern; a matching line
contributes its class name when `find_class_names` is set and the class
name starts with the queried string case-insensitively, and likewise its
entity name under `find_entity_names`; the combined result is deduplicated
and sorted (`sorted(set(class_names + entity_names))`). -/
def query_entities_parse (pfx : String) (find_class_names find_entity_names : Bool)
    (lines : List String) : List String :=
  let class_names := lines.filterMap (fun l =>
    match pyMatchLine l.data with
    | some (c, _) =>
      if find_class_names && strStartsWith (lowerL pfx.data) (lowerL c)
      then some (String.mk c) else none
    | none => none)
  let entity_names := lines.filterMap (fun l =>
    match pyMatchLine l.data with
    | some (_, e) =>
      if find_entity_names && strStartsWith (lowerL pfx.data) (lowerL e)
      then some (String.mk e) else none
    | none => none)
  pySorted (class_names ++ entity_names).dedup

/-- Python's `str.split(sep)` for a one-character separator and no limit:
always returns at least one field, and an empty string between two
separators (or at either end) is an empty field. -/
def pySplit (sep : Char) : List Char → List (List Char)
  | [] => [[]]
  | c :: rest =>
    if c = sep then [] :: pySplit sep rest
    else
      match pySplit sep rest with
      | [] => [[c]]
      | p :: ps => (c :: p) :: ps

/-- Python's `str.strip()` (ASCII whitespace): drop whitespace from both
ends. -/
def pyStrip (s : List Char) : List Char :=
  ((s.dropWhile isSpc).reverse.dropWhile isSpc).reverse

/-- The per-line candidate extraction of `load_cvar_list` (lines 160-163):
`parts = line.split(":"); if parts and parts[0].strip():` append
`parts[0].strip()`. -/
def cvarCandidate (line : String) : Option String :=
  match pySplit ':' line.data with
  | [] => none
  | p :: _ =>
    let s := pyStrip p
    if s.isEmpty then none else some (String.mk s)

/-- The parsing core of `load_cvar_list` (lines 159-165): collect the
non-empty trimmed first fields of the response lines, in order, and sort
them (`self.cvar_list = sorted(cvar_list)`). -/
def load_cvar_list (lines : List String) : List String :=
  pySorted (lines.filterMap cvarCandidate)

/-- The shared console state that `query_entities` mutates: the per-query
result map `autocomplete_results`, the `query_in_progress` flags, the
`suppress_output` switch and the output queue. -/
structure ProbeState where
  autocomplete_results : String → Option (List String)
  query_in_progress : String → Bool
  suppress_output : Bool
  output_queue : List Chunk

/-- `query_entities` (lines 175-214) as a state transition.  The body of
the `try` block after the drain — the send, the quiet-period collection
and the parsing — is abstracted by `collected`: `Except.ok lines` means it
produced the response lines, `Except.error u` that it raised.  On the
normal path the parsed, sorted results are published under the queried
string and its in-progress flag is cleared; on the `except` path an empty
result list is published and the flag is cleared; on both paths the
`finally` block sets `suppress_output` back to `False`.  The initial
statements set `suppress_output` and drain the stale queue. -/
def query_entities_run (pfx : String) (find_class_names find_entity_names : Bool)
    (collected : Except Unit (List String)) (st : ProbeState) : ProbeState :=
  let st1 : ProbeState :=
    { st with suppress_output := true, output_queue := [] }
  match collected with
  | .ok lines =>
    { st1 with
      autocomplete_results := fun p =>
        if p = pfx then some (query_entities_parse pfx find_class_names find_entity_names lines)
        else st1.autocomplete_results p
      query_in_progress := fun p => if p = pfx then false else st1.query_in_progress p
      suppress_output := false }
  | .error _ =>
    { st1 with
      autocomplete_results := fun p =>
        if p = pfx then some [] else st1.autocomplete_results p
      query_in_progress := fun p => if p = pfx then false else st1.query_in_progress p
      suppress_output := false }

/-- The connection state read and written by `send_command`:
the `running` flag, the recorded `last_command`, the
`is_autocomplete_query` mode flag, and the log of strings written to the
socket. -/
structure ConnState where
  running : Bool
  last_command : Option String
  is_autocomplete_query : Bool
  sent : List String
deriving DecidableEq, Repr

/-- `send_command` (lines 91-111) as a state transition.  When `running`
is false it prints an error and returns `False` at once — before taking
the lock, recording anything or touching the socket.  Otherwise it records
the command and the mode flag and writes `cmd + '\n'`; `write_ok` is
whether `sock.send` succeeds — on a raised socket error the recorded
fields are already updated (lines 97-98 precede line 99), `running` is set
to `False` and `False` is returned.  (The courtesy `wait_for_output` delay
changes no state and is not modelled.) -/
def send_command (cmd : String) (is_autocomplete : Bool) (write_ok : Bool)
    (st : ConnState) : Bool × ConnState :=
  if !st.running then (false, st)
  else
    if write_ok then
      (true,
       { st with
         last_command := some cmd
         is_autocomplete_query := is_autocomplete
         sent := st.sent ++ [cmd ++ "\n"] })
    else
      (false,
       { st with
         last_command := some cmd
         is_autocomplete_query := is_autocomplete
         running := false })

/-- A one-shot arrival schedule: chunks at tick 0, silence afterwards. -/
def oneShotSched (chunks : List Chunk) : Nat → List Chunk :=
  fun t => if t = 0 then chunks else []

/-- Concrete schedule for exercising the quiet-period theorem: one chunk
at tick 0 and one at tick 1, silence from tick 2 on. -/
def twoTickSched : Nat → List Chunk :=
  fun t => if t ≤ 1 then [⟨['a'], false⟩] else []

/-- Concrete probe state for exercising the guaranteed-release theorem:
suppression on, a query marked in progress, a stale chunk queued. -/
def sampleProbeState : ProbeState :=
  { autocomplete_results := fun _ => none
    query_in_progress := fun p => p = "pr"
    suppress_output := true
    output_queue := [⟨['z'], true⟩] }

/-- Concrete disconnected state for exercising the `send_command`
theorem. -/
def sampleClosedConn : ConnState :=
  { running := false
    last_command := some "status"
    is_autocomplete_query := true
    sent := ["status\n"] }

/-! ## Order lemmas for the code-point comparator -/

theorem charToNat_inj {a b : Char} (h : a.toNat = b.toNat) : a = b :=
  Char.eq_of_val_eq (UInt32.ext h)

theorem strLtL_irrefl : ∀ as : List Char, strLtL as as = false := by
  intro as
  induction as with
  | nil => rfl
  | cons a as ih => simp [strLtL, ih]

theorem strLtL_trans :
    ∀ as bs cs : List Char,
      strLtL as bs = true → strLtL bs cs = true → strLtL as cs = true := by
  intro as
  induction as with
  | nil =>
    intro bs cs h1 h2
    cases bs with
    | nil => simp [strLtL] at h1
    | cons b bs =>
      cases cs with
      | nil => simp [strLtL] at h2
      | cons c cs => rfl
  | cons a as ih =>
    intro bs cs h1 h2
    cases bs with
    | nil => simp [strLtL] at h1
    | cons b bs =>
      cases cs with
      | nil => simp [strLtL] at h2
      | cons c cs =>
        simp only [strLtL, Bool.or_eq_true, Bool.and_eq_true, decide_eq_true_eq] at h1 h2 ⊢
        rcases h1 with h1 | ⟨e1, r1⟩
        · rcases h2 with h2 | ⟨e2, r2⟩
          · exact Or.inl (by omega)
          · exact Or.inl (by omega)
        · rcases h2 with h2 | ⟨e2, r2⟩
          · exact Or.inl (by omega)
          · exact Or.inr ⟨by omega, ih bs cs r1 r2⟩

theorem strLtL_connex :
    ∀ as bs : List Char,
      strLtL as bs = false → strLtL bs as = false → as = bs := by
  intro as
  induction as with
  | nil =>
    intro bs h1 _
    cases bs with
    | nil => rfl
    | cons b bs => simp [strLtL] at h1
  | cons a as ih =>
    intro bs h1 h2
    cases bs with
    | nil => simp [strLtL] at h2
    | cons b bs =>
      simp only [strLtL, Bool.or_eq_false_iff, Bool.and_eq_false_iff,
        decide_eq_false_iff_not] at h1 h2
      have hab : a.toNat = b.toNat := by omega
      have : as = bs := by
        apply ih
        · rcases h1.2 with h | h
          · exact absurd hab h
          · exact h
        · rcases h2.2 with h | h
          · exact absurd hab.symm h
          · exact h
      rw [charToNat_inj hab, this]

theorem strLe_total : ∀ a b : String, strLe a b = true ∨ strLe b a = true := by
  intro a b
  cases hab : strLtL a.data b.data with
  | false => right; simp [strLe, hab]
  | true =>
    cases hba : strLtL b.data a.data with
    | false => left; simp [strLe, hba]
    | true =>
      have := strLtL_trans _ _ _ hab hba
      rw [strLtL_irrefl] at this
      cases this

theorem strLe_trans :
    ∀ a b c : String, strLe a b = true → strLe b c = true → strLe a c = true := by
  intro a b c h1 h2
  simp only [strLe, Bool.not_eq_true', Bool.not_eq_true] at h1 h2 ⊢
  cases hca : strLtL c.data a.data with
  | false => rfl
  | true =>
    cases hab : strLtL a.data b.data with
    | false =>
      have he : a.data = b.data := strLtL_connex _ _ hab h1
      rw [he] at hca
      rw [hca] at h2
      cases h2
    | true =>
      have := strLtL_trans _ _ _ hca hab
      rw [h2] at this
      cases this

/-! ## The insertion sort used to model Python's `sorted` -/

theorem pyInsert_perm (x : String) :
    ∀ l : List String, (pyInsert x l).Perm (x :: l) := by
  intro l
  induction l with
  | nil => exact List.Perm.refl _
  | cons y ys ih =>
    rw [pyInsert]
    by_cases h : strLe x y = true
    · simp [h]
    · simp only [h, if_false]
      exact (ih.cons y).trans (List.Perm.swap x y ys)

theorem pySorted_perm : ∀ l : List String, (pySorted l).Perm l := by
  intro l
  induction l with
  | nil => exact List.Perm.refl _
  | cons x xs ih => exact (pyInsert_perm x (pySorted xs)).trans (ih.cons x)

theorem pairwise_pyInsert (x : String) :
    ∀ l : List String, l.Pairwise (fun a b => strLe a b = true) →
      (pyInsert x l).Pairwise (fun a b => strLe a b = true) := by
  intro l
  induction l with
  | nil => intro _; simp [pyInsert]
  | cons y ys ih =>
    intro h
    rcases List.pairwise_cons.mp h with ⟨hy, hys⟩
    rw [pyInsert]
    by_cases hxy : strLe x y = true
    · simp only [hxy, if_true]
      refine List.pairwise_cons.mpr ⟨?_, h⟩
      intro b hb
      rcases List.mem_cons.mp hb with rfl | hb
      · exact hxy
      · exact strLe_trans x y b hxy (hy b hb)
    · simp only [hxy, if_false]
      refine List.pairwise_cons.mpr ⟨?_, ih hys⟩
      intro b hb
      have hb' : b ∈ x :: ys := (pyInsert_perm x ys).mem_iff.mp hb
      rcases List.mem_cons.mp hb' with rfl | hb'
      · rcases strLe_total b y with h' | h'
        · exact absurd h' hxy
        · exact h'
      · exact hy b hb'

theorem pairwise_pySorted :
    ∀ l : List String, (pySorted l).Pairwise (fun a b => strLe a b = true) := by
  intro l
  induction l with
  | nil => exact List.Pairwise.nil
  | cons x xs ih => exact pairwise_pyInsert x (pySorted xs) ih

/-! ## Helper lemma for the reader's normalization -/

theorem normalizeCRLF_ne_nil : ∀ l : List Char, l ≠ [] → normalizeCRLF l ≠ [] := by
  intro l hl
  induction l using normalizeCRLF.induct with
  | case1 => exact absurd rfl hl
  | case2 rest => simp [normalizeCRLF]
  | case3 c rest h => simp [normalizeCRLF]

/-! ## Lemmas about the quiet-period collector loop -/

theorem gol_le_of_some (sched : Nat → List Chunk) (T : Nat) (fa : Bool) :
    ∀ fuel t d acc R res,
      d ≤ t + T →
      get_output_loop sched T fa fuel t d acc = some (R, res) →
      d ≤ R ∧ t ≤ R := by
  intro fuel
  induction fuel with
  | zero =>
    intro t d acc R res _ h
    simp [get_output_loop] at h
  | succ n ih =>
    intro t d acc R res hdT h
    rw [get_output_loop] at h
    by_cases hdt : d ≤ t
    · rw [if_pos hdt] at h
      obtain ⟨rfl, rfl⟩ : t = R ∧ acc = res := by
        simpa using h
      exact ⟨hdt, Nat.le_refl t⟩
    · rw [if_neg hdt] at h
      have hinv : (if (sched t).isEmpty then d else t + T) ≤ (t + 1) + T := by
        split <;> omega
      have := ih (t + 1) _ _ R res hinv h
      have hdd : d ≤ (if (sched t).isEmpty then d else t + T) := by
        split <;> omega
      exact ⟨Nat.le_trans hdd this.1, by omega⟩

theorem gol_arrival_bound (sched : Nat → List Chunk) (T : Nat) (fa : Bool) :
    ∀ fuel t d acc R res,
      d ≤ t + T →
      get_output_loop sched T fa fuel t d acc = some (R, res) →
      ∀ a, t ≤ a → a < R → sched a ≠ [] → a + T ≤ R := by
  intro fuel
  induction fuel with
  | zero =>
    intro t d acc R res _ h
    simp [get_output_loop] at h
  | succ n ih =>
    intro t d acc R res hdT h a hta haR hne
    rw [get_output_loop] at h
    by_cases hdt : d ≤ t
    · rw [if_pos hdt] at h
      obtain ⟨rfl, rfl⟩ : t = R ∧ acc = res := by simpa using h
      omega
    · rw [if_neg hdt] at h
      have hinv : (if (sched t).isEmpty then d else t + T) ≤ (t + 1) + T := by
        split <;> omega
      rcases Nat.eq_or_lt_of_le hta with heq | hlt
      · subst heq
        have hemp : (sched t).isEmpty = false := List.isEmpty_eq_false.mpr hne
        rw [hemp] at h
        have := gol_le_of_some sched T fa n (t + 1) (t + T) _ R res (by omega) h
        exact this.1
      · exact ih (a := a) (t + 1) _ _ R res hinv h (by omega) haR hne

theorem gol_silent_march (sched : Nat → List Chunk) (T : Nat) (fa : Bool) :
    ∀ fuel t d acc,
      (∀ u, t ≤ u → sched u = []) → t ≤ d → d - t < fuel →
      get_output_loop sched T fa fuel t d acc = some (d, acc) := by
  intro fuel
  induction fuel with
  | zero => intro t d acc _ _ hf; omega
  | succ n ih =>
    intro t d acc hs htd hf
    rw [get_output_loop]
    by_cases hdt : d ≤ t
    · have : d = t := by omega
      rw [if_pos hdt, this]
    · rw [if_neg hdt]
      have hst : sched t = [] := hs t (Nat.le_refl t)
      rw [hst]
      have h1 : ((List.nil : List Chunk).isEmpty) = true := rfl
      rw [h1, if_pos rfl]
      have h2 : pyFilterConcat fa [] = [] := rfl
      rw [h2, List.append_nil]
      exact ih (t + 1) d acc (fun u hu => hs u (by omega)) (by omega) (by omega)

theorem gol_terminates (sched : Nat → List Chunk) (T M : Nat) (fa : Bool) :
    ∀ fuel t d acc,
      0 < T → (∀ u, M ≤ u → sched u = []) →
      t ≤ d → d ≤ M + T → M + T - t < fuel →
      ∃ R res, get_output_loop sched T fa fuel t d acc = some (R, res) := by
  intro fuel
  induction fuel with
  | zero => intro t d acc _ _ htd hdb hf; omega
  | succ n ih =>
    intro t d acc hT hM htd hdb hf
    rw [get_output_loop]
    by_cases hdt : d ≤ t
    · exact ⟨t, acc, by rw [if_pos hdt]⟩
    · rw [if_neg hdt]
      have htM : t < M + T := by omega
      by_cases he : (sched t).isEmpty
      · rw [if_pos he]
        exact ih (t + 1) d _ hT hM (by omega) hdb (by omega)
      · rw [if_neg he]
        have htM2 : t < M := by
          by_contra hc
          have : sched t = [] := hM t (by omega)
          rw [this] at he
          exact he rfl
        exact ih (t + 1) (t + T) _ hT hM (by omega) (by omega) (by omega)

theorem gol_chain_bound (sched : Nat → List Chunk) (T R : Nat)
    (hsafe : ∀ a, a < R → sched a ≠ [] → a + T ≤ R) :
    ∀ as : List Nat,
      List.Chain' (fun x y => x < y ∧ y < x + T) as →
      (∀ x ∈ as, sched x ≠ []) →
      (∀ x, as.head? = some x → x < R) →
      ∀ x ∈ as, x + T ≤ R := by
  intro as
  induction as with
  | nil => intro _ _ _ x hx; cases hx
  | cons a rest ih =>
    intro hch hne hhead x hx
    have haR : a < R := hhead a rfl
    have haT : a + T ≤ R := hsafe a haR (hne a (List.mem_cons_self a rest))
    rcases List.mem_cons.mp hx with rfl | hx'
    · exact haT
    · apply ih hch.tail (fun y hy => hne y (List.mem_cons_of_mem a hy)) ?_ x hx'
      intro y hy
      cases rest with
      | nil => simp at hy
      | cons b bs =>
        have hab : a < b ∧ b < a + T := (List.chain'_cons.mp hch).1
        have : b = y := by simpa using hy
        omega

/-! ## Claim theorems -/

/-- C1 (counterexample): the claim says the ContinuousDisplay loop never
emits a probe-tagged chunk while suppression is off.  It is false: when
not suppressed, `display_continuous_output` prints whatever chunk it pops
without looking at the tag, so a probe-tagged chunk at the head of the
queue is emitted. -/
theorem display_probe_leak :
    ¬ (∀ (c : Chunk) (q : List Chunk), c.is_probe = true →
        (display_step false (c :: q)).2 ≠ some c.text) :=
  fun h => h ⟨['x'], true⟩ [] rfl rfl

/-- C1 (amended): the ContinuousDisplay loop, while the connection runs,
emits every chunk it pops verbatim regardless of its probe tag — running
it unsuppressed over a queue prints the concatenation of all chunk texts,
probe-tagged ones included — and while suppression is on it pops nothing,
which is the only mechanism keeping probe responses off the display. -/
theorem display_step_amended :
    (∀ q : List Chunk, display_run q = (q.map (fun c => c.text)).flatten) ∧
    (∀ q : List Chunk, display_step true q = (q, none)) := by
  constructor
  · intro q
    induction q with
    | nil => rfl
    | cons c rest ih => simp [display_run, display_step, ih]
  · intro q
    rfl

/-- C8 (confirmed): on any internal failure during `query_entities` the
engine publishes an empty result list for the queried string instead of
propagating the error, clears its in-progress flag, and the
`finally` block restores `suppress_output` to false on both the success
and the failure path. -/
theorem query_entities_guaranteed_release (pfx : String) (fc fe : Bool)
    (collected : Except Unit (List String)) (st : ProbeState) :
    (query_entities_run pfx fc fe collected st).suppress_output = false ∧
    (query_entities_run pfx fc fe collected st).query_in_progress pfx = false ∧
    (∀ u, collected = .error u →
      (query_entities_run pfx fc fe collected st).autocomplete_results pfx = some []) ∧
    (∀ lines, collected = .ok lines →
      (query_entities_run pfx fc fe collected st).autocomplete_results pfx
        = some (query_entities_parse pfx fc fe lines)) := by
  cases collected with
  | ok lines => simp [query_entities_run]
  | error u => simp [query_entities_run]

/-- Witness for C8 at a concrete failing probe over a concrete state. -/
theorem query_entities_guaranteed_release_witness :
    (query_entities_run "pr" true true (Except.error ()) sampleProbeState).autocomplete_results "pr"
      = some [] :=
  (query_entities_guaranteed_release "pr" true true (Except.error ()) sampleProbeState).2.2.1 () rfl

/-- C9 (confirmed): when `running` is false, `send_command` fails
immediately with the NotConnected outcome (returns `False`), writes
nothing to the socket, and leaves `last_command` and the
`is_autocomplete_query` mode flag untouched: the state is returned
unchanged. -/
theorem send_command_not_connected (cmd : String) (is_autocomplete write_ok : Bool)
    (st : ConnState) (h : st.running = false) :
    send_command cmd is_autocomplete write_ok st = (false, st) := by
  simp [send_command, h]

/-- Witness for C9 at a concrete command and closed connection. -/
theorem send_command_not_connected_witness :
    send_command "status" false true sampleClosedConn = (false, sampleClosedConn) :=
  send_command_not_connected "status" false true sampleClosedConn rfl

/-- C10 (confirmed): `read_output` never enqueues an empty chunk: when a
received byte string decodes (malformed bytes dropped) to the empty
string, no chunk is pushed at all, and every chunk it does push has
non-empty text. -/
theorem read_output_nonempty_chunks (units : List (Option Char)) (mode : Bool) :
    (pyDecodeIgnore units = [] → read_output_chunk units mode = none) ∧
    (∀ c, read_output_chunk units mode = some c → c.text ≠ []) := by
  constructor
  · intro h
    simp [read_output_chunk, h]
  · intro c hc
    by_cases h : (pyDecodeIgnore units).isEmpty
    · simp [read_output_chunk, h] at hc
    · have h' : read_output_chunk units mode
          = some ⟨normalizeCRLF (pyDecodeIgnore units), mode⟩ := by
        simp [read_output_chunk, h]
      rw [h'] at hc
      cases hc
      have hne : pyDecodeIgnore units ≠ [] := by
        simpa [List.isEmpty_eq_false] using h
      simpa using normalizeCRLF_ne_nil _ hne

/-- Witness for C10: a read consisting of one malformed byte sequence
pushes nothing. -/
theorem read_output_nonempty_chunks_witness :
    read_output_chunk [none] false = none :=
  (read_output_nonempty_chunks [none] false).1 rfl

/-- C3 (counterexample): the claim says `read_output` decodes by
*replacing* malformed byte sequences, normalizes *all* line-ending
variants, and pushes exactly one chunk per received byte string.  It is
false: the code decodes with `errors='ignore'`, so a read consisting of a
single malformed sequence decodes to the empty string and pushes no chunk
at all, while the claimed behaviour would push one chunk containing
U+FFFD. -/
theorem read_output_decode_counterexample :
    ¬ (∀ (units : List (Option Char)) (mode : Bool),
        read_output_chunk units mode
          = some ⟨specNormalizeEOL (specDecodeReplace units), mode⟩) :=
  fun h => absurd (h [none] false) (by decide)

/-- C3 (amended): for every byte string received from the socket,
`read_output` decodes it *dropping* malformed byte sequences (never
raising), normalizes CRLF pairs — and only those — to LF, and pushes one
chunk tagged with the mode flag active at read time exactly when the
decoded text is non-empty. -/
theorem read_output_amended (units : List (Option Char)) (mode : Bool) :
    (read_output_chunk units mode = none ↔ pyDecodeIgnore units = []) ∧
    (∀ c, read_output_chunk units mode = some c →
      c.is_probe = mode ∧ c.text = normalizeCRLF (pyDecodeIgnore units) ∧ c.text ≠ []) := by
  by_cases h : (pyDecodeIgnore units).isEmpty
  · constructor
    · simp [read_output_chunk, h, List.isEmpty_iff.mp h]
    · intro c hc
      simp [read_output_chunk, h] at hc
  · have h' : read_output_chunk units mode
        = some ⟨normalizeCRLF (pyDecodeIgnore units), mode⟩ := by
      simp [read_output_chunk, h]
    have hne : pyDecodeIgnore units ≠ [] := by
      simpa [List.isEmpty_eq_false] using h
    constructor
    · rw [h']
      simp [hne]
    · intro c hc
      rw [h'] at hc
      cases hc
      exact ⟨rfl, rfl, by simpa using normalizeCRLF_ne_nil _ hne⟩

/-- Witness for C3's amended theorem at a concrete one-character read. -/
theorem read_output_amended_witness :
    (Chunk.mk ['a'] true).is_probe = true ∧
    (Chunk.mk ['a'] true).text = normalizeCRLF (pyDecodeIgnore [some 'a']) ∧
    (Chunk.mk ['a'] true).text ≠ [] :=
  (read_output_amended [some 'a'] true).2 ⟨['a'], true⟩ rfl

/-- C2 (counterexample): the claim says `get_output` with
`filter_autocomplete=True` concatenates exactly the probe-tagged chunks.
It is false: the condition `filter_autocomplete or not is_autocomplete`
is true for *every* chunk when `filter_autocomplete=True`, so a
non-probe chunk is also included. -/
theorem get_output_filter_counterexample :
    ¬ (∀ chunks : List Chunk,
        pyFilterConcat true chunks
          = ((chunks.filter (fun c => c.is_probe)).map (fun c => c.text)).flatten ∧
        pyFilterConcat false chunks
          = ((chunks.filter (fun c => !c.is_probe)).map (fun c => c.text)).flatten) :=
  fun h => absurd (h [⟨['a'], false⟩]).1 (by decide)

/-- C2 (amended): `get_output` with `filter_autocomplete=True` returns the
concatenation of *all* chunks popped (probe-tagged or not — the permissive
mode), and with `filter_autocomplete=False` the concatenation of exactly
the non-probe-tagged chunks; every popped chunk is consumed and never
requeued, as the collector run over a one-shot schedule shows: it returns
just the filtered concatenation, the rest is discarded. -/
theorem get_output_filter_amended (chunks : List Chunk)
    (filter_autocomplete : Bool) (T fuel : Nat)
    (hT : 0 < T) (hfuel : T + 1 ≤ fuel) :
    pyFilterConcat true chunks = (chunks.map (fun c => c.text)).flatten ∧
    pyFilterConcat false chunks
      = ((chunks.filter (fun c => !c.is_probe)).map (fun c => c.text)).flatten ∧
    get_output_loop (oneShotSched chunks) T filter_autocomplete fuel 0 T []
      = some (T, pyFilterConcat filter_autocomplete chunks) := by
  refine ⟨?_, ?_, ?_⟩
  · have he : chunkContrib true = fun c : Chunk => c.text := by
      funext c
      simp [chunkContrib]
    rw [pyFilterConcat, he]
  · induction chunks with
    | nil => rfl
    | cons c cs ih =>
      by_cases h : c.is_probe
      · simp [pyFilterConcat, chunkContrib, h] at ih ⊢
        exact ih
      · simp [pyFilterConcat, chunkContrib, h] at ih ⊢
        exact ih
  · obtain ⟨n, rfl⟩ : ∃ n, fuel = n + 1 := ⟨fuel - 1, by omega⟩
    rw [get_output_loop, if_neg (by omega)]
    have e0 : oneShotSched chunks 0 = chunks := rfl
    rw [e0]
    have hdd : (if chunks.isEmpty = true then T else 0 + T) = T := by
      split <;> omega
    rw [hdd]
    have := gol_silent_march (oneShotSched chunks) T filter_autocomplete n 1 T
      ([] ++ pyFilterConcat filter_autocomplete chunks)
      (fun u hu => by simp [oneShotSched]; omega) (by omega) (by omega)
    simpa using this

/-- Witness for C2's amended theorem at a concrete mixed queue. -/
theorem get_output_filter_amended_witness :
    get_output_loop (oneShotSched [⟨['a'], true⟩, ⟨['b'], false⟩]) 1 false 2 0 1 []
      = some (1, pyFilterConcat false [⟨['a'], true⟩, ⟨['b'], false⟩]) :=
  (get_output_filter_amended [⟨['a'], true⟩, ⟨['b'], false⟩] false 1 2
    (by decide) (by decide)).2.2

/-- C4 (confirmed, in the discrete-time model): a run of the `get_output`
loop with window `T` over a schedule that falls silent from tick `M` on
terminates, returns no earlier than its initial deadline `T`, returns no
earlier than `T` after every chunk arrival it observed (its deadline is
reset to `now + T` on every pop, so the return time is at least
`arrival + T` for each arrival before the return — in particular strictly
after any chunk was collected, since `0 < T`), and for a synthetic source
emitting chunks at ticks that start before `T` and are spaced less than
`T` apart, it does not return until `T` after that source's last
emission. -/
theorem get_output_quiet_period (sched : Nat → List Chunk) (T M : Nat)
    (filter_autocomplete : Bool) (hT : 0 < T)
    (hM : ∀ u, M ≤ u → sched u = []) :
    ∃ R res,
      get_output_loop sched T filter_autocomplete (M + T + 1) 0 T [] = some (R, res) ∧
      T ≤ R ∧
      (∀ a, a < R → sched a ≠ [] → a + T ≤ R) ∧
      (∀ as : List Nat, List.Chain' (fun x y => x < y ∧ y < x + T) as →
        (∀ x ∈ as, sched x ≠ []) → (∀ x, as.head? = some x → x < T) →
        ∀ x ∈ as, x + T ≤ R) := by
  obtain ⟨R, res, h⟩ :=
    gol_terminates sched T M filter_autocomplete (M + T + 1) 0 T []
      hT hM (by omega) (by omega) (by omega)
  have hTR : T ≤ R :=
    (gol_le_of_some sched T filter_autocomplete (M + T + 1) 0 T [] R res (by omega) h).1
  have hsafe : ∀ a, a < R → sched a ≠ [] → a + T ≤ R := by
    intro a haR hne
    exact gol_arrival_bound sched T filter_autocomplete (M + T + 1) 0 T [] R res
      (by omega) h a (Nat.zero_le a) haR hne
  refine ⟨R, res, h, hTR, hsafe, ?_⟩
  intro as hch hne hhd
  exact gol_chain_bound sched T R hsafe as hch hne
    (fun x hx => Nat.lt_of_lt_of_le (hhd x hx) hTR)

/-- Witness for C4: a source emitting a chunk at ticks 0 and 1 with
window 2 and silence from tick 2 on. -/
theorem get_output_quiet_period_witness :
    ∃ R res,
      get_output_loop twoTickSched 2 false (2 + 2 + 1) 0 2 [] = some (R, res) ∧
      2 ≤ R ∧
      (∀ a, a < R → twoTickSched a ≠ [] → a + 2 ≤ R) ∧
      (∀ as : List Nat, List.Chain' (fun x y => x < y ∧ y < x + 2) as →
        (∀ x ∈ as, twoTickSched x ≠ []) → (∀ x, as.head? = some x → x < 2) →
        ∀ x ∈ as, x + 2 ≤ R) :=
  get_output_quiet_period twoTickSched 2 2 false (by decide)
    (by
      intro u hu
      simp only [twoTickSched]
      rw [if_neg]
      omega)

/-- C5 (confirmed): for every queried string and response-line list,
`query_entities` produces a sorted, duplicate-free list whose members all
case-insensitively start with the queried string, each member being the
class name (only when `find_class_names` is set) or the entity name (only
when `find_entity_names` is set) of some line matching the quoted-pair
pattern. -/
theorem query_entities_spec (pfx : String) (find_class_names find_entity_names : Bool)
    (lines : List String) :
    (query_entities_parse pfx find_class_names find_entity_names lines).Pairwise
      (fun a b => strLe a b = true) ∧
    (query_entities_parse pfx find_class_names find_entity_names lines).Nodup ∧
    ∀ m ∈ query_entities_parse pfx find_class_names find_entity_names lines,
      strStartsWith (lowerL pfx.data) (lowerL m.data) = true ∧
      ∃ l ∈ lines, ∃ cls ent, pyMatchLine l.data = some (cls, ent) ∧
        ((find_class_names = true ∧ m.data = cls) ∨
         (find_entity_names = true ∧ m.data = ent)) := by
  refine ⟨pairwise_pySorted _, ?_, ?_⟩
  · rw [query_entities_parse]
    exact (pySorted_perm _).nodup_iff.mpr (List.nodup_dedup _)
  · intro m hm
    rw [query_entities_parse] at hm
    have hm2 := List.mem_dedup.mp ((pySorted_perm _).mem_iff.mp hm)
    rcases List.mem_append.mp hm2 with hA | hB
    · obtain ⟨l, hl, hfl⟩ := List.mem_filterMap.mp hA
      cases hpm : pyMatchLine l.data with
      | none => rw [hpm] at hfl; cases hfl
      | some p =>
        obtain ⟨cls, ent⟩ := p
        rw [hpm] at hfl
        have hfl' :
            (if (find_class_names && strStartsWith (lowerL pfx.data) (lowerL cls)) = true
             then some (String.mk cls) else none) = some m := hfl
        by_cases hcond : find_class_names && strStartsWith (lowerL pfx.data) (lowerL cls)
        · rw [if_pos hcond] at hfl'
          obtain rfl : String.mk cls = m := by simpa using hfl'
          rcases Bool.and_eq_true .. |>.mp hcond with ⟨hfc, hsw⟩
          exact ⟨hsw, l, hl, cls, ent, hpm, Or.inl ⟨hfc, rfl⟩⟩
        · rw [if_neg hcond] at hfl'
          cases hfl'
    · obtain ⟨l, hl, hfl⟩ := List.mem_filterMap.mp hB
      cases hpm : pyMatchLine l.data with
      | none => rw [hpm] at hfl; cases hfl
      | some p =>
        obtain ⟨cls, ent⟩ := p
        rw [hpm] at hfl
        have hfl' :
            (if (find_entity_names && strStartsWith (lowerL pfx.data) (lowerL ent)) = true
             then some (String.mk ent) else none) = some m := hfl
        by_cases hcond : find_entity_names && strStartsWith (lowerL pfx.data) (lowerL ent)
        · rw [if_pos hcond] at hfl'
          obtain rfl : String.mk ent = m := by simpa using hfl'
          rcases Bool.and_eq_true .. |>.mp hcond with ⟨hfe, hsw⟩
          exact ⟨hsw, l, hl, cls, ent, hpm, Or.inr ⟨hfe, rfl⟩⟩
        · rw [if_neg hcond] at hfl'
          cases hfl'

/-- Witness for C5 at a concrete probe: the member "ab" of the result for
queried string "a" over one response line. -/
theorem query_entities_spec_witness :
    strStartsWith (lowerL ("a" : String).data) (lowerL ("ab" : String).data) = true ∧
    ∃ l ∈ ["'A' : 'ab'"], ∃ cls ent, pyMatchLine l.data = some (cls, ent) ∧
      ((true = true ∧ ("ab" : String).data = cls) ∨
       (true = true ∧ ("ab" : String).data = ent)) :=
  (query_entities_spec "a" true true ["'A' : 'ab'"]).2.2 "ab" (by decide)

/-- C6 (confirmed): on the two response lines of the spec's example,
probing "prop" with both class-name and entity-name matching enabled
returns exactly the two entity names, sorted; neither class name starts
with "prop", so neither is included. -/
theorem query_entities_prop_example :
    query_entities_parse "prop" true true
      ["'CBaseEntity' : 'prop_button'", "'CPhysicsProp' : 'prop_crate'"]
      = ["prop_button", "prop_crate"] := by
  decide

/-- C7 (confirmed): `load_cvar_list` splits each response line on `:`,
keeps the trimmed first field exactly when it is non-empty, and stores the
sorted result; a member is in the list iff it is the non-empty trimmed
first field of some response line, and on the spec's example lines
`"sv_cheats : 0 : ..."` and a blank line the result is exactly
`["sv_cheats"]`. -/
theorem load_cvar_list_spec :
    (∀ lines : List String,
      (load_cvar_list lines).Pairwise (fun a b => strLe a b = true) ∧
      (load_cvar_list lines).Perm (lines.filterMap cvarCandidate) ∧
      (∀ cv : String, cv ∈ load_cvar_list lines ↔
        ∃ l ∈ lines, cvarCandidate l = some cv)) ∧
    load_cvar_list ["sv_cheats : 0 : ...", "   "] = ["sv_cheats"] := by
  refine ⟨fun lines => ⟨pairwise_pySorted _, pySorted_perm _, fun cv => ?_⟩, by decide⟩
  rw [load_cvar_list]
  exact (pySorted_perm _).mem_iff.trans List.mem_filterMap

/-- Witness for C7: membership of "sv_cheats" in the loaded list follows
from the characterization at the example lines. -/
theorem load_cvar_list_spec_witness :
    "sv_cheats" ∈ load_cvar_list ["sv_cheats : 0 : ...", "   "] :=
  ((load_cvar_list_spec.1 ["sv_cheats : 0 : ...", "   "]).2.2 "sv_cheats").mpr
    ⟨"sv_cheats : 0 : ...", by decide, by decide⟩
